import Mathlib

/-!
Verification of the dialog-script → Watson dialog-tree convertor (`dialog.py`).

The embedding mirrors the source:

* `StoryNode` holds the immutable per-node data of the Python `StoryNode`
  (`id`, `text`, and the ordered `children` mapping label → target id).
* `NodeMut` holds the three fields the Python code mutates during the walk
  (`parent`, `previous_sibling`, `conditions`); a `TState` is the mutable
  store, keyed by node id (the Python objects are shared via the
  `story_nodes` dict, one object per id, so keying by id is faithful).
* `walk` is `StoryNode.tree`'s loop over `self.children` (lines 78-97);
  `treeTopE` is the top-level `tree` call made by `StoryTree.export`.
  Python recursion is modelled with a fuel parameter; every recursive call
  consumes one unit, and a sufficiency theorem shows a computable fuel bound
  never runs out, which settles termination.
* `OutRec.placed` stands for appending a `StoryNode` to the result list,
  `OutRec.pointer` for appending a `StoryNodePointer` (captured by value:
  pointers are fresh objects the Python code never mutates afterwards).
* `encodeRec` is `StoryNode.encode` / `StoryNodePointer.encode`, reading the
  final mutable state (Python encodes the shared objects after the walk).
* `sanitize`, `intentsOf`, `rewriteChildren`, `annotateText`, `prepStory`
  and `exportE` follow `StoryTree.export` (lines 142-172); the voice map is
  empty so the `re.sub` loop body never runs.
-/

structure StoryNode where
  id : String
  text : String
  children : List (String × String)
  deriving Repr, DecidableEq

structure NodeMut where
  parent : Option String
  previous_sibling : Option String
  conditions : Option String
  deriving Repr, DecidableEq

abbrev TState := String → NodeMut

def initState : TState := fun _ => ⟨none, none, none⟩

def upd (st : TState) (i : String) (f : NodeMut → NodeMut) : TState :=
  fun j => if j = i then f (st j) else st j

/-- `{node.id : node for node in self.nodes}` followed by `[key]` lookup:
a Python dict comprehension lets a later node with the same id win. -/
def dictOf (story : List StoryNode) (key : String) : Option StoryNode :=
  match story with
  | [] => none
  | n :: rest =>
    match dictOf rest key with
    | some m => some m
    | none => if n.id = key then some n else none

inductive OutRec where
  | placed (id : String) (text : String)
  | pointer (source : String) (target : String) (condition : String)
      (prev : Option String)
  deriving Repr, DecidableEq

inductive TreeErr where
  | keyError (key : String)
  | outOfFuel
  | indexError
  deriving Repr, DecidableEq

/-- The three sequential mutations performed when a child is placed
(dialog.py lines 84-92, placed case): `child.parent = story_nodes[self.id]`
(the dict object under `self.id` has id `self.id`), then
`if previous_sibling is not None: child.previous_sibling = previous_sibling`,
then `child.conditions = response`. -/
def placeChild (st : TState) (childId selfId : String) (prevSib : Option String)
    (response : String) : TState :=
  let st1 := upd st childId (fun m => { m with parent := some selfId })
  let st2 := if prevSib.isSome then
      upd st1 childId (fun m => { m with previous_sibling := prevSib })
    else st1
  upd st2 childId (fun m => { m with conditions := some response })

/-- The body of `StoryNode.tree` (dialog.py lines 78-97), processing the
remaining `cs` of `self.children` for the node `selfId`.  Each loop step:
look the target up in `story_nodes` (KeyError when absent), test
`child.parent is None`, either place the child (`placeChild`, then recurse
into the child before the rest of the loop) or emit a `StoryNodePointer`
and do not recurse.  `prevSib` is the `previous_sibling` loop variable (the
id of the object it references).  Python's call stack is modelled by fuel:
each recursive call consumes one unit; `Except.bind`/`Except.map` propagate
an uncaught exception exactly as Python unwinds it. -/
def walk (story : List StoryNode) :
    Nat → String → List (String × String) → Option String → TState →
    Except TreeErr (List OutRec × TState)
  | 0, _, _, _, _ => .error .outOfFuel
  | fuel + 1, selfId, cs, prevSib, st =>
    match cs with
    | [] => .ok ([], st)
    | (response, tid) :: rest =>
      match dictOf story tid with
      | none => .error (.keyError tid)
      | some child =>
        if (st child.id).parent = none then
          (walk story fuel child.id child.children none
              (placeChild st child.id selfId prevSib response)).bind (fun pr =>
            (walk story fuel selfId rest (some child.id) pr.2).map (fun qr =>
              (OutRec.placed child.id child.text :: (pr.1 ++ qr.1), qr.2)))
        else
          (walk story fuel selfId rest (some (selfId ++ "-" ++ child.id)) st).map
            (fun qr =>
              (OutRec.pointer selfId child.id response prevSib :: qr.1, qr.2))

/-- `nodes[list(nodes.keys())[0]].tree(nodes)`: the designated root is the
first node's id; `tree` first appends `self`, then runs the loop. -/
def treeTopE (story : List StoryNode) (fuel : Nat) :
    Except TreeErr (List OutRec × TState) :=
  match story with
  | [] => .error .indexError
  | n₀ :: _ =>
    match dictOf story n₀.id with
    | none => .error .indexError
    | some root =>
      match fuel with
      | 0 => .error .outOfFuel
      | fuel' + 1 =>
        match walk story fuel' root.id root.children none initState with
        | .error e => .error e
        | .ok (recs, st) => .ok (OutRec.placed root.id root.text :: recs, st)

def reservedLabels : List String := ["conversation_start", "anything_else"]

/-- `.replace(" ", "_").replace("'", "_")`: both patterns are single
characters and the replacement `_` is neither, so the two sequential
replaces equal one character map.  `Char.ofNat 39` is the apostrophe. -/
def sanitizeChar (c : Char) : Char :=
  if c = ' ' ∨ c = Char.ofNat 39 then '_' else c

def sanitize (s : String) : String := String.mk (s.data.map sanitizeChar)

/-- `response_to_intent[response]` for non-reserved labels (always `"#"` +
the sanitized label), literal pass-through for reserved ones. -/
def rewriteLabel (l : String) : String :=
  if l ∈ reservedLabels then l else "#" ++ sanitize l

/-- Python dict assignment `d[k] = v`: update in place keeping position,
else append. -/
def dictInsert (m : List (String × String)) (k v : String) :
    List (String × String) :=
  if m.any (fun p => p.1 == k) then
    m.map (fun p => if p.1 = k then (k, v) else p)
  else m ++ [(k, v)]

/-- The `new_responses` dict built at dialog.py lines 160-166. -/
def rewriteChildren (cs : List (String × String)) : List (String × String) :=
  cs.foldl (fun acc p => dictInsert acc (rewriteLabel p.1) p.2) []

def collectResponses (story : List StoryNode) : List String :=
  story.flatMap (fun n => n.children.map (fun p => p.1))

structure Intent where
  intent : String
  examples : List String
  deriving Repr, DecidableEq

/-- `list(set(responses))` then one `Intent(safe, response)` per
non-reserved response (lines 150-158).  `List.dedup` stands in for
`list(set(·))`: same elements, each exactly once; the claims below only
use the intent list as a set. -/
def intentsOf (story : List StoryNode) : List Intent :=
  (((collectResponses story).dedup).filter
      (fun r => decide (r ∉ reservedLabels))).map
    (fun r => { intent := sanitize r, examples := [r] })

/-- The text mutation of lines 144-149: append `"\nDo you: \n"` when the
node has children, then every response followed by `"?\n"`. -/
def annotateText (n : StoryNode) : String :=
  if n.children.isEmpty then n.text
  else n.text ++ "\nDo you: \n" ++
    String.join (n.children.map (fun p => p.1 ++ "?\n"))

/-- A node as it stands when `tree` is called: text annotated with the
original labels, children rewritten to intent references. -/
def prepNode (n : StoryNode) : StoryNode :=
  { n with text := annotateText n, children := rewriteChildren n.children }

def prepStory (story : List StoryNode) : List StoryNode :=
  story.map prepNode

structure DialogNode where
  ntype : String
  title : String
  text : Option String
  parent : Option String
  previous_sibling : Option String
  conditions : Option String
  dialog_node : String
  jump_to : Option String
  deriving Repr, DecidableEq

/-- `StoryNode.encode` (lines 53-75) and `StoryNodePointer.encode`
(lines 26-42).  `jump_to` is `next_step.dialog_node`; a content node has
none, a pointer has no text payload. -/
def encodeRec (st : TState) : OutRec → DialogNode
  | OutRec.placed i tx =>
    { ntype := "standard", title := i,
      text := some ("<speak>" ++ tx ++ "</speak>"),
      parent := (st i).parent,
      previous_sibling := (st i).previous_sibling,
      conditions := (st i).conditions,
      dialog_node := i, jump_to := none }
  | OutRec.pointer s t c pv =>
    { ntype := "standard", title := t, text := none,
      parent := some s, previous_sibling := pv,
      conditions := some c,
      dialog_node := s ++ "-" ++ t, jump_to := some t }

/-- `StoryTree.export` (lines 142-172) up to the serialized payload: the
intent list and the encoded `dialog_nodes`, with `tree[0].conditions =
"conversation_start"` applied to the root object before encoding. -/
def exportE (story : List StoryNode) (fuel : Nat) :
    Except TreeErr (List Intent × List DialogNode) :=
  let ints := intentsOf story
  let story' := prepStory story
  match treeTopE story' fuel with
  | .error e => .error e
  | .ok (recs, st) =>
    match story' with
    | [] => .error .indexError
    | n₀ :: _ =>
      let st' := upd st n₀.id (fun m => { m with conditions := some "conversation_start" })
      .ok (ints, recs.map (encodeRec st'))

/-! Projections used to state concrete evaluations without comparing
states (a `TState` is a function and has no decidable equality). -/

def recsOf (e : Except TreeErr (List OutRec × TState)) : Option (List OutRec) :=
  match e with
  | .ok p => some p.1
  | .error _ => none

def placedCountIn (story : List StoryNode) (fuel : Nat) (i : String) : Nat :=
  match treeTopE story fuel with
  | .ok p => p.1.countP (fun r =>
      match r with
      | .placed j _ => j == i
      | _ => false)
  | .error _ => 0

structure NProj where
  dn : String
  par : Option String
  sib : Option String
  cond : Option String
  jmp : Option String
  deriving Repr, DecidableEq

def nodeProj (d : DialogNode) : NProj :=
  ⟨d.dialog_node, d.parent, d.previous_sibling, d.conditions, d.jump_to⟩

def exportProj (story : List StoryNode) (fuel : Nat) : Option (List NProj) :=
  match exportE story fuel with
  | .ok p => some (p.2.map nodeProj)
  | .error _ => none

def intentIdsOf (story : List StoryNode) : List String :=
  (intentsOf story).map (fun i => i.intent)

/-- The records encoded with a given parent id, with their sibling links. -/
def childProj (story : List StoryNode) (fuel : Nat) (pid : String) :
    Option (List (String × Option String)) :=
  match exportE story fuel with
  | .ok p => some ((p.2.filter (fun d => d.parent == some pid)).map
      (fun d => (d.dialog_node, d.previous_sibling)))
  | .error _ => none

/-! The concrete node sets used by the claims. -/

def nodeA : StoryNode := ⟨"A", "Hi", [("go left", "B"), ("go right", "C")]⟩
def nodeB : StoryNode := ⟨"B", "Left room", [("back", "A")]⟩
def nodeC : StoryNode := ⟨"C", "Right room", []⟩

/-- The spec §8 concrete scenario. -/
def demoStory : List StoryNode := [nodeA, nodeB, nodeC]

/-- A root with two choices, the second leading to a node with two repeat
edges into the already-placed `B`: the walk emits two pointers `A2-B`. -/
def nodeR : StoryNode := ⟨"R", "r", [("x", "B"), ("y", "A2")]⟩
def nodeB2 : StoryNode := ⟨"B", "b", []⟩
def nodeA2 : StoryNode := ⟨"A2", "a", [("p", "B"), ("q", "B")]⟩
def demoRepeat : List StoryNode := [nodeR, nodeB2, nodeA2]

/-- A reachable choice whose target id `X` is absent from the node set. -/
def demoMissing : List StoryNode := [⟨"A", "hi", [("go", "X")]⟩]

/-- The dangling edge to `X` sits on `B`, which the walk never reaches. -/
def nodeUB : StoryNode := ⟨"B", "b", [("go", "X")]⟩
def demoUnreachable : List StoryNode := [⟨"A", "hi", []⟩, nodeUB]

/-! Basic facts about the id-keyed dictionary. -/

theorem dictOf_some {story : List StoryNode} {key : String} {m : StoryNode}
    (h : dictOf story key = some m) : m ∈ story ∧ m.id = key := by
  induction story with
  | nil => simp [dictOf] at h
  | cons n rest ih =>
    rw [dictOf] at h
    cases hr : dictOf rest key with
    | some m' =>
      rw [hr] at h
      cases h
      rcases ih hr with ⟨h1, h2⟩
      exact ⟨List.mem_cons_of_mem _ h1, h2⟩
    | none =>
      rw [hr] at h
      by_cases hid : n.id = key
      · rw [if_pos hid] at h
        cases h
        exact ⟨List.mem_cons_self _ _, hid⟩
      · rw [if_neg hid] at h
        cases h

theorem dictOf_mem_isSome {story : List StoryNode} {key : String}
    (h : ∃ n, n ∈ story ∧ n.id = key) :
    ∃ m, dictOf story key = some m ∧ m.id = key := by
  induction story with
  | nil => rcases h with ⟨n, hn, _⟩; cases hn
  | cons n rest ih =>
    rcases h with ⟨x, hx, hid⟩
    rw [dictOf]
    cases hr : dictOf rest key with
    | some m' => exact ⟨m', rfl, (dictOf_some hr).2⟩
    | none =>
      rcases List.mem_cons.mp hx with h1 | h1
      · subst h1; simp [hid]
      · rcases ih ⟨x, h1, hid⟩ with ⟨m, hm, _⟩
        rw [hm] at hr; cases hr

/-! Facts about label sanitization. -/

theorem sanitizeChar_idem (c : Char) :
    sanitizeChar (sanitizeChar c) = sanitizeChar c := by
  rcases Decidable.em (c = ' ' ∨ c = Char.ofNat 39) with h | h
  · rw [show sanitizeChar c = '_' from if_pos h]; decide
  · rw [show sanitizeChar c = c from if_neg h]; exact if_neg h

theorem sanitize_idem (s : String) : sanitize (sanitize s) = sanitize s := by
  unfold sanitize
  apply String.ext
  simp [List.map_map, Function.comp, sanitizeChar_idem]

theorem sanitize_hash (s : String) :
    sanitize ("#" ++ s) = "#" ++ sanitize s := by
  unfold sanitize
  apply String.ext
  rw [String.data_append, String.data_append]
  have h1 : ("#" : String).data = ['#'] := rfl
  rw [h1]
  simp only [List.map_append, List.map_cons, List.map_nil]
  have h2 : sanitizeChar '#' = '#' := by decide
  rw [h2]

theorem hash_not_reserved (s : String) : ("#" ++ s) ∉ reservedLabels := by
  intro h
  have hcases : ("#" ++ s) = "conversation_start" ∨ ("#" ++ s) = "anything_else" := by
    simpa [reservedLabels] using h
  rcases hcases with h1 | h1 <;>
  · have hd := congrArg String.data h1
    rw [String.data_append] at hd
    have hh : ("#" : String).data = ['#'] := rfl
    rw [hh, List.singleton_append] at hd
    first
    | (have hc : ("conversation_start" : String).data =
          'c' :: ("onversation_start" : String).data := rfl
       rw [hc] at hd
       injection hd with hx _
       exact absurd hx (by decide))
    | (have hc : ("anything_else" : String).data =
          'a' :: ("nything_else" : String).data := rfl
       rw [hc] at hd
       injection hd with hx _
       exact absurd hx (by decide))

/-! Characterizations of the intent table. -/

/-- The label `l` appears as a choice label somewhere in the node set. -/
def occursIn (story : List StoryNode) (l : String) : Prop :=
  ∃ n, n ∈ story ∧ ∃ t, (l, t) ∈ n.children

theorem mem_collectResponses {story : List StoryNode} {l : String} :
    l ∈ collectResponses story ↔ occursIn story l := by
  simp only [collectResponses, occursIn, List.mem_flatMap, List.mem_map]
  constructor
  · rintro ⟨n, hn, p, hp, rfl⟩
    exact ⟨n, hn, p.2, hp⟩
  · rintro ⟨n, hn, t, ht⟩
    exact ⟨n, hn, (l, t), ht, rfl⟩

theorem mem_intentsOf {story : List StoryNode} {it : Intent} :
    it ∈ intentsOf story ↔
      ∃ l, occursIn story l ∧ l ∉ reservedLabels ∧
        it = ⟨sanitize l, [l]⟩ := by
  simp only [intentsOf, List.mem_map, List.mem_filter, List.mem_dedup,
    mem_collectResponses, decide_eq_true_eq]
  constructor
  · rintro ⟨l, ⟨h1, h2⟩, rfl⟩
    exact ⟨l, h1, h2, rfl⟩
  · rintro ⟨l, h1, h2, rfl⟩
    exact ⟨l, ⟨h1, h2⟩, rfl⟩

theorem mem_intentIds {story : List StoryNode} {i : String} :
    i ∈ intentIdsOf story ↔
      ∃ l, occursIn story l ∧ l ∉ reservedLabels ∧ i = sanitize l := by
  simp only [intentIdsOf, List.mem_map]
  constructor
  · rintro ⟨it, hit, rfl⟩
    rcases mem_intentsOf.mp hit with ⟨l, h1, h2, rfl⟩
    exact ⟨l, h1, h2, rfl⟩
  · rintro ⟨l, h1, h2, rfl⟩
    exact ⟨⟨sanitize l, [l]⟩, mem_intentsOf.mpr ⟨l, h1, h2, rfl⟩, rfl⟩

theorem countP_intent_examples (story : List StoryNode) (l : String)
    (h1 : occursIn story l) (h2 : l ∉ reservedLabels) :
    (intentsOf story).countP (fun i => i.examples == [l]) = 1 := by
  unfold intentsOf
  rw [List.countP_map]
  have hpt : ∀ r ∈ ((collectResponses story).dedup).filter
      (fun r => decide (r ∉ reservedLabels)),
      (((fun i => i.examples == [l]) ∘
        (fun r => ({ intent := sanitize r, examples := [r] } : Intent))) r = true
        ↔ (r == l) = true) := by
    intro r _
    by_cases hrl : r = l
    · subst hrl; simp
    · simp [hrl]
  rw [List.countP_congr hpt]
  have hmem : l ∈ ((collectResponses story).dedup).filter
      (fun r => decide (r ∉ reservedLabels)) :=
    List.mem_filter.mpr
      ⟨List.mem_dedup.mpr (mem_collectResponses.mpr h1), by simp [h2]⟩
  have hnd : (((collectResponses story).dedup).filter
      (fun r => decide (r ∉ reservedLabels))).Nodup :=
    (List.nodup_dedup _).filter _
  rw [show (List.countP (fun r => r == l) _ : Nat) =
      List.count l (((collectResponses story).dedup).filter
        (fun r => decide (r ∉ reservedLabels))) from rfl]
  exact List.count_eq_one_of_mem hnd hmem

/-! The label rewrite of a node's choice mapping. -/

theorem foldl_dictInsert_fresh :
    ∀ (cs acc : List (String × String)),
    (∀ p ∈ cs, ∀ q ∈ acc, q.1 ≠ rewriteLabel p.1) →
    (cs.map (fun p => rewriteLabel p.1)).Nodup →
    cs.foldl (fun a p => dictInsert a (rewriteLabel p.1) p.2) acc =
      acc ++ cs.map (fun p => (rewriteLabel p.1, p.2))
  | [], acc, _, _ => by simp
  | p :: rest, acc, hdisj, hnd => by
    rw [List.foldl_cons]
    have hfresh : acc.any (fun q => q.1 == rewriteLabel p.1) = false := by
      rw [List.any_eq_false]
      intro q hq
      simpa using hdisj p (List.mem_cons_self _ _) q hq
    have hins : dictInsert acc (rewriteLabel p.1) p.2 =
        acc ++ [(rewriteLabel p.1, p.2)] := by
      rw [dictInsert, hfresh]; rfl
    rw [hins]
    rw [List.map_cons, List.nodup_cons] at hnd
    rw [foldl_dictInsert_fresh rest (acc ++ [(rewriteLabel p.1, p.2)])
      (by
        intro p' hp' q hq
        rcases List.mem_append.mp hq with hq1 | hq1
        · exact hdisj p' (List.mem_cons_of_mem _ hp') q hq1
        · rcases List.mem_singleton.mp hq1 with rfl
          intro hcontra
          apply hnd.1
          have heq : rewriteLabel p.1 = rewriteLabel p'.1 := hcontra
          rw [heq]
          exact List.mem_map_of_mem _ hp')
      hnd.2]
    rw [List.append_assoc]
    rfl

theorem rewriteChildren_map (cs : List (String × String))
    (hnd : (cs.map (fun p => rewriteLabel p.1)).Nodup) :
    rewriteChildren cs = cs.map (fun p => (rewriteLabel p.1, p.2)) := by
  unfold rewriteChildren
  simpa using foldl_dictInsert_fresh cs [] (by simp) hnd

theorem mem_fst_iff {cs : List (String × String)} {k : String} :
    k ∈ cs.map Prod.fst ↔ ∃ t, (k, t) ∈ cs := by
  constructor
  · intro h
    rcases List.mem_map.mp h with ⟨p, hp, rfl⟩
    exact ⟨p.2, by simpa using hp⟩
  · rintro ⟨t, ht⟩
    exact List.mem_map.mpr ⟨(k, t), ht, rfl⟩

theorem mem_keys_dictInsert {m : List (String × String)} {k v x : String} :
    x ∈ (dictInsert m k v).map Prod.fst ↔ x ∈ m.map Prod.fst ∨ x = k := by
  unfold dictInsert
  by_cases hany : m.any (fun p => p.1 == k)
  · rw [if_pos hany]
    rw [List.any_eq_true] at hany
    rcases hany with ⟨w, hw, hwk⟩
    rw [beq_iff_eq] at hwk
    constructor
    · intro h
      rcases List.mem_map.mp h with ⟨p', hp', rfl⟩
      rcases List.mem_map.mp hp' with ⟨p, hp, rfl⟩
      by_cases hpk : p.1 = k
      · right; rw [if_pos hpk]
      · left; rw [if_neg hpk]; exact List.mem_map_of_mem _ hp
    · rintro (hx | rfl)
      · rcases List.mem_map.mp hx with ⟨p, hp, rfl⟩
        apply List.mem_map.mpr
        refine ⟨(if p.1 = k then (k, v) else p), List.mem_map_of_mem _ hp, ?_⟩
        by_cases hpk : p.1 = k
        · rw [if_pos hpk]; exact hpk.symm
        · rw [if_neg hpk]
      · apply List.mem_map.mpr
        refine ⟨_, List.mem_map_of_mem _ hw, ?_⟩
        rw [if_pos hwk]
  · rw [if_neg hany]
    simp [List.mem_append]

theorem mem_keys_foldl :
    ∀ (cs acc : List (String × String)) (x : String),
    (x ∈ (cs.foldl (fun a p => dictInsert a (rewriteLabel p.1) p.2) acc).map
        Prod.fst) ↔
      x ∈ acc.map Prod.fst ∨ ∃ l t, (l, t) ∈ cs ∧ x = rewriteLabel l
  | [], acc, x => by simp
  | p :: rest, acc, x => by
    rw [List.foldl_cons, mem_keys_foldl rest _ x, mem_keys_dictInsert]
    constructor
    · rintro ((h | h) | ⟨l, t, hlt, rfl⟩)
      · exact Or.inl h
      · exact Or.inr ⟨p.1, p.2, List.mem_cons_self _ _, h⟩
      · exact Or.inr ⟨l, t, List.mem_cons_of_mem _ hlt, rfl⟩
    · rintro (h | ⟨l, t, hlt, rfl⟩)
      · exact Or.inl (Or.inl h)
      · rcases List.mem_cons.mp hlt with h1 | h1
        · exact Or.inl (Or.inr (by rw [show l = p.1 from congrArg Prod.fst h1]))
        · exact Or.inr ⟨l, t, h1, rfl⟩

theorem mem_keys_rewriteChildren {cs : List (String × String)} {x : String} :
    x ∈ (rewriteChildren cs).map Prod.fst ↔
      ∃ l t, (l, t) ∈ cs ∧ x = rewriteLabel l := by
  unfold rewriteChildren
  simpa using mem_keys_foldl cs [] x

theorem occursIn_prepStory {story : List StoryNode} {k : String} :
    occursIn (prepStory story) k ↔
      ∃ l, occursIn story l ∧ k = rewriteLabel l := by
  constructor
  · rintro ⟨n', hn', t, ht⟩
    rcases List.mem_map.mp hn' with ⟨n, hn, rfl⟩
    have hk : k ∈ (rewriteChildren n.children).map Prod.fst :=
      mem_fst_iff.mpr ⟨t, ht⟩
    rcases mem_keys_rewriteChildren.mp hk with ⟨l, t', hlt, rfl⟩
    exact ⟨l, ⟨n, hn, t', hlt⟩, rfl⟩
  · rintro ⟨l, ⟨n, hn, t, ht⟩, rfl⟩
    have hk : rewriteLabel l ∈ (rewriteChildren n.children).map Prod.fst :=
      mem_keys_rewriteChildren.mpr ⟨l, t, ht, rfl⟩
    rcases mem_fst_iff.mp hk with ⟨t', ht'⟩
    exact ⟨_, List.mem_map_of_mem _ hn, t', ht'⟩

theorem mem_second_ids {story : List StoryNode} {i : String} :
    i ∈ intentIdsOf (prepStory story) ↔
      ∃ j, j ∈ intentIdsOf story ∧ i = "#" ++ j := by
  rw [mem_intentIds]
  constructor
  · rintro ⟨k, hocc, hres, rfl⟩
    rcases occursIn_prepStory.mp hocc with ⟨l, hl, rfl⟩
    by_cases hlr : l ∈ reservedLabels
    · rw [rewriteLabel, if_pos hlr] at hres
      exact absurd hlr hres
    · have hrw : rewriteLabel l = "#" ++ sanitize l := by
        rw [rewriteLabel, if_neg hlr]
      exact ⟨sanitize l, mem_intentIds.mpr ⟨l, hl, hlr, rfl⟩,
        by rw [hrw, sanitize_hash, sanitize_idem]⟩
  · rintro ⟨j, hj, rfl⟩
    rcases mem_intentIds.mp hj with ⟨l, hl, hlr, rfl⟩
    refine ⟨rewriteLabel l, occursIn_prepStory.mpr ⟨l, hl, rfl⟩, ?_, ?_⟩
    · rw [rewriteLabel, if_neg hlr]; exact hash_not_reserved _
    · rw [rewriteLabel, if_neg hlr, sanitize_hash, sanitize_idem]

/-- C6: intent extraction produces exactly one `Intent` per distinct
non-reserved choice label occurring anywhere (id: the label with spaces and
apostrophes replaced by `_`, phrasings: the single original label); every
node's choice mapping is rewritten replacing each non-reserved label by `#`
plus its sanitized id, while the reserved labels pass through unchanged and
never become intents.  The per-node mapping statement assumes the rewritten
keys of that node are distinct (the source stores them in a dict, so two
labels whose rewrites collide would silently merge — the spec flags this
collision as an open question). -/
theorem c6_intent_extraction (story : List StoryNode) :
    (∀ l, occursIn story l → l ∉ reservedLabels →
        Intent.mk (sanitize l) [l] ∈ intentsOf story
        ∧ (intentsOf story).countP (fun i => i.examples == [l]) = 1)
    ∧ (∀ it, it ∈ intentsOf story →
        ∃ l, occursIn story l ∧ l ∉ reservedLabels ∧
          it = ⟨sanitize l, [l]⟩)
    ∧ (∀ l, l ∈ reservedLabels → rewriteLabel l = l)
    ∧ (∀ l, l ∉ reservedLabels → rewriteLabel l = "#" ++ sanitize l)
    ∧ (∀ n, n ∈ story →
        (n.children.map (fun p => rewriteLabel p.1)).Nodup →
        ∃ n', n' ∈ prepStory story ∧ n'.id = n.id ∧
          n'.children = n.children.map (fun p => (rewriteLabel p.1, p.2))) := by
  refine ⟨?_, ?_, ?_, ?_, ?_⟩
  · intro l h1 h2
    exact ⟨mem_intentsOf.mpr ⟨l, h1, h2, rfl⟩,
      countP_intent_examples story l h1 h2⟩
  · intro it hit
    exact mem_intentsOf.mp hit
  · intro l hl
    rw [rewriteLabel, if_pos hl]
  · intro l hl
    rw [rewriteLabel, if_neg hl]
  · intro n hn hnd
    exact ⟨_, List.mem_map_of_mem _ hn, rfl, rewriteChildren_map _ hnd⟩

/-- Witness for C6 at the spec's concrete scenario. -/
theorem c6_intent_extraction_witness :
    (Intent.mk "go_left" ["go left"] ∈ intentsOf demoStory
      ∧ (intentsOf demoStory).countP
          (fun i => i.examples == ["go left"]) = 1)
    ∧ rewriteLabel "conversation_start" = "conversation_start"
    ∧ rewriteLabel "go left" = "#go_left"
    ∧ (∃ n', n' ∈ prepStory demoStory ∧ n'.id = nodeA.id ∧
        n'.children = nodeA.children.map
          (fun p => (rewriteLabel p.1, p.2))) := by
  obtain ⟨h1, _, h3, h4, h5⟩ := c6_intent_extraction demoStory
  have hocc : occursIn demoStory "go left" := by
    refine ⟨nodeA, by decide, "B", by decide⟩
  have hres : "go left" ∉ reservedLabels := by decide
  obtain ⟨ha, hb⟩ := h1 "go left" hocc hres
  refine ⟨⟨by simpa using ha, ?_⟩, h3 _ (by decide), ?_, ?_⟩
  · simpa using hb
  · have := h4 "go left" hres
    rw [this]
    decide
  · exact h5 nodeA (by decide) (by decide)

/-- C7 amended: re-running extraction on the already-rewritten node set does
not reproduce the first run's intent set; it wraps every label again: the
second run's intent ids are exactly the first run's ids prefixed with `#`,
so the two sets agree only when no intent exists at all. -/
theorem c7_reextraction_prefixes (story : List StoryNode) :
    (∀ i, i ∈ intentIdsOf (prepStory story) ↔
        ∃ j, j ∈ intentIdsOf story ∧ i = "#" ++ j)
    ∧ (intentIdsOf story ≠ [] →
        ¬ ∀ x, (x ∈ intentIdsOf (prepStory story) ↔ x ∈ intentIdsOf story)) := by
  refine ⟨fun i => mem_second_ids, fun hne hall => ?_⟩
  obtain ⟨m, hm⟩ : ∃ m, m ∈ (intentIdsOf story).argmin String.length := by
    cases h : (intentIdsOf story).argmin String.length with
    | none => exact absurd (List.argmin_eq_none.mp h) hne
    | some m => exact ⟨m, rfl⟩
  have hmem : m ∈ intentIdsOf story := List.argmin_mem hm
  have hm2 : m ∈ intentIdsOf (prepStory story) := (hall m).mpr hmem
  rcases mem_second_ids.mp hm2 with ⟨j, hj, heq⟩
  have hlen : m.length = 1 + j.length := by
    rw [heq, String.length_append]
    rfl
  have hle : m.length ≤ j.length := List.le_of_mem_argmin hj hm
  omega

/-- Witness for C7 amended at the spec's concrete scenario. -/
theorem c7_reextraction_prefixes_witness :
    ("#go_left" ∈ intentIdsOf (prepStory demoStory) ↔
        ∃ j, j ∈ intentIdsOf demoStory ∧ "#go_left" = "#" ++ j)
    ∧ ¬ ∀ x, (x ∈ intentIdsOf (prepStory demoStory) ↔
        x ∈ intentIdsOf demoStory) := by
  obtain ⟨h1, h2⟩ := c7_reextraction_prefixes demoStory
  exact ⟨h1 "#go_left", h2 (by decide)⟩

/-! Destructors for `Except.bind` / `Except.map` results. -/

theorem except_bind_ok {α β : Type} {e : Except TreeErr α}
    {f : α → Except TreeErr β} {b : β} (h : e.bind f = .ok b) :
    ∃ a, e = .ok a ∧ f a = .ok b := by
  cases e with
  | error ε => simp [Except.bind] at h
  | ok a => exact ⟨a, rfl, by simpa [Except.bind] using h⟩

theorem except_map_ok {α β : Type} {f : α → β} {e : Except TreeErr α} {b : β}
    (h : e.map f = .ok b) : ∃ a, e = .ok a ∧ f a = b := by
  cases e with
  | error ε => simp [Except.map] at h
  | ok a => exact ⟨a, rfl, by simpa [Except.map] using h⟩

theorem except_bind_error {α β : Type} {e : Except TreeErr α}
    {f : α → Except TreeErr β} {ε : TreeErr} (h : e.bind f = .error ε) :
    e = .error ε ∨ ∃ a, e = .ok a ∧ f a = .error ε := by
  cases e with
  | error ε' =>
    left
    have : ε' = ε := by simpa [Except.bind] using h
    rw [this]
  | ok a => exact Or.inr ⟨a, rfl, by simpa [Except.bind] using h⟩

theorem except_map_error {α β : Type} {f : α → β} {e : Except TreeErr α}
    {ε : TreeErr} (h : e.map f = .error ε) : e = .error ε := by
  cases e with
  | error ε' =>
    have : ε' = ε := by simpa [Except.map] using h
    rw [this]
  | ok a => simp [Except.map] at h

/-! Pointwise behaviour of `placeChild`. -/

theorem placeChild_other {st : TState} {childId selfId : String}
    {prevSib : Option String} {response : String} {i : String}
    (h : i ≠ childId) :
    placeChild st childId selfId prevSib response i = st i := by
  by_cases hps : prevSib.isSome <;> simp [placeChild, upd, h, hps]

theorem placeChild_self_parent (st : TState) (childId selfId : String)
    (prevSib : Option String) (response : String) :
    (placeChild st childId selfId prevSib response childId).parent =
      some selfId := by
  by_cases hps : prevSib.isSome <;> simp [placeChild, upd, hps]

theorem placeChild_self_conditions (st : TState) (childId selfId : String)
    (prevSib : Option String) (response : String) :
    (placeChild st childId selfId prevSib response childId).conditions =
      some response := by
  by_cases hps : prevSib.isSome <;> simp [placeChild, upd, hps]

theorem placeChild_self_sibling (st : TState) (childId selfId : String)
    (prevSib : Option String) (response : String) :
    (placeChild st childId selfId prevSib response childId).previous_sibling =
      if prevSib.isSome then prevSib else (st childId).previous_sibling := by
  by_cases hps : prevSib.isSome <;> simp [placeChild, upd, hps]

/-! Invariants of the walk, by induction on the fuel (both recursive calls
in a step use the predecessor fuel, so plain induction suffices). -/

theorem walk_parent_stable {story : List StoryNode} :
    ∀ (fuel : Nat) (selfId : String) (cs : List (String × String))
      (prevSib : Option String) (st : TState) {out : List OutRec} {st₁ : TState},
    walk story fuel selfId cs prevSib st = .ok (out, st₁) →
    ∀ i v, (st i).parent = some v → (st₁ i).parent = some v := by
  intro fuel
  induction fuel with
  | zero =>
    intro selfId cs prevSib st out st₁ h
    simp [walk] at h
  | succ fuel ih =>
    intro selfId cs prevSib st out st₁ h i v hv
    match cs with
    | [] =>
      simp only [walk, Except.ok.injEq, Prod.mk.injEq] at h
      rw [← h.2]
      exact hv
    | (response, tid) :: rest =>
      simp only [walk] at h
      cases hdict : dictOf story tid with
      | none => rw [hdict] at h; simp at h
      | some child =>
        rw [hdict] at h
        simp only [] at h
        by_cases hpar : (st child.id).parent = none
        · rw [if_pos hpar] at h
          obtain ⟨⟨recs, st4⟩, hw1, h⟩ := except_bind_ok h
          obtain ⟨⟨recs2, st5⟩, hw2, h⟩ := except_map_ok h
          simp only [Prod.mk.injEq] at h
          rw [← h.2]
          have h3 : (placeChild st child.id selfId prevSib response i).parent =
              some v := by
            by_cases hic : i = child.id
            · subst hic; rw [hv] at hpar; cases hpar
            · rw [placeChild_other hic]; exact hv
          exact ih selfId rest (some child.id) st4 hw2 i v
            (ih child.id child.children none _ hw1 i v h3)
        · rw [if_neg hpar] at h
          obtain ⟨⟨recs2, st5⟩, hw2, h⟩ := except_map_ok h
          simp only [Prod.mk.injEq] at h
          rw [← h.2]
          exact ih selfId rest (some (selfId ++ "-" ++ child.id)) st hw2 i v hv

/-! A termination measure: the total weight of nodes not yet placed.  Each
placement removes one node's weight; the recursion depth and loop length are
both covered by it. -/

def idsOf (story : List StoryNode) : List String :=
  story.map (fun n => n.id)

def nodeWeight (story : List StoryNode) (i : String) : Nat :=
  match dictOf story i with
  | some n => n.children.length + 1
  | none => 0

def unplacedWeight (story : List StoryNode) (st : TState) : Nat :=
  (((idsOf story).dedup.filter
      (fun i => (st i).parent.isNone)).map (nodeWeight story)).sum

def storyWeight (story : List StoryNode) : Nat :=
  ((idsOf story).dedup.map (nodeWeight story)).sum

theorem sum_filter_le_of_imp {l : List String} (f : String → Nat)
    {p q : String → Bool} (h : ∀ x ∈ l, p x = true → q x = true) :
    ((l.filter p).map f).sum ≤ ((l.filter q).map f).sum := by
  induction l with
  | nil => simp
  | cons a l ih =>
    have ih' := ih (fun x hx => h x (List.mem_cons_of_mem _ hx))
    by_cases hp : p a = true
    · rw [List.filter_cons_of_pos hp,
        List.filter_cons_of_pos (h a (List.mem_cons_self _ _) hp)]
      simp only [List.map_cons, List.sum_cons]
      omega
    · rw [List.filter_cons_of_neg (by simpa using hp)]
      by_cases hq : q a = true
      · rw [List.filter_cons_of_pos hq]
        simp only [List.map_cons, List.sum_cons]
        omega
      · rw [List.filter_cons_of_neg (by simpa using hq)]
        exact ih'

theorem sum_filter_remove {l : List String} (f : String → Nat)
    {p q : String → Bool} {a : String} :
    l.Nodup → a ∈ l → p a = true → q a = false →
    (∀ x ∈ l, x ≠ a → p x = q x) →
    ((l.filter q).map f).sum + f a = ((l.filter p).map f).sum := by
  induction l with
  | nil => intro _ ha; cases ha
  | cons b l ih =>
    intro hnd hmem hpa hqa hagree
    rw [List.nodup_cons] at hnd
    rcases List.mem_cons.mp hmem with rfl | hmem'
    · rw [List.filter_cons_of_pos hpa, List.filter_cons_of_neg (by simp [hqa])]
      have hfe : l.filter q = l.filter p :=
        List.filter_congr (fun x hx =>
          (hagree x (List.mem_cons_of_mem _ hx)
            (fun hxa => hnd.1 (hxa ▸ hx))).symm)
      rw [hfe]
      simp only [List.map_cons, List.sum_cons]
      omega
    · have hba : b ≠ a := fun hba => hnd.1 (hba ▸ hmem')
      have hrec := ih hnd.2 hmem' hpa hqa
        (fun x hx => hagree x (List.mem_cons_of_mem _ hx))
      by_cases hpb : p b = true
      · rw [List.filter_cons_of_pos hpb,
          List.filter_cons_of_pos (by rw [← hagree b (List.mem_cons_self _ _) hba]; exact hpb)]
        simp only [List.map_cons, List.sum_cons]
        omega
      · have hqb : q b = false := by
          rw [← hagree b (List.mem_cons_self _ _) hba]
          simpa using hpb
        rw [show List.filter q (b :: l) = List.filter q l from
            List.filter_cons_of_neg (by simp [hqb]),
          show List.filter p (b :: l) = List.filter p l from
            List.filter_cons_of_neg (by simpa using hpb)]
        exact hrec

theorem unplacedWeight_placeChild {story : List StoryNode} {st : TState}
    {child : StoryNode} (selfId : String) (prevSib : Option String)
    (response : String) (hmem : child ∈ story)
    (hpar : (st child.id).parent = none) :
    unplacedWeight story
        (placeChild st child.id selfId prevSib response)
      + nodeWeight story child.id = unplacedWeight story st := by
  unfold unplacedWeight
  apply sum_filter_remove (nodeWeight story) (List.nodup_dedup _)
    (List.mem_dedup.mpr (List.mem_map_of_mem _ hmem))
  · rw [hpar]; rfl
  · rw [placeChild_self_parent]; rfl
  · intro x _ hx
    rw [placeChild_other hx]

theorem walk_weight_mono {story : List StoryNode}
    {fuel : Nat} {selfId : String} {cs : List (String × String)}
    {prevSib : Option String} {st : TState} {out : List OutRec} {st₁ : TState}
    (h : walk story fuel selfId cs prevSib st = .ok (out, st₁)) :
    unplacedWeight story st₁ ≤ unplacedWeight story st := by
  apply sum_filter_le_of_imp
  intro x _ hx
  rw [Option.isNone_iff_eq_none] at hx ⊢
  by_contra hne
  rcases Option.ne_none_iff_exists'.mp hne with ⟨v, hv⟩
  rw [walk_parent_stable fuel selfId cs prevSib st h x v hv] at hx
  cases hx

theorem walk_total {story : List StoryNode}
    (Ht : ∀ n ∈ story, ∀ p ∈ n.children, (dictOf story p.2).isSome) :
    ∀ (fuel : Nat) (selfId : String) (cs : List (String × String))
      (prevSib : Option String) (st : TState),
    (∀ p ∈ cs, (dictOf story p.2).isSome) →
    cs.length + unplacedWeight story st < fuel →
    ∃ r, walk story fuel selfId cs prevSib st = .ok r := by
  intro fuel
  induction fuel with
  | zero => intro _ _ _ _ _ hf; omega
  | succ fuel ih =>
    intro selfId cs prevSib st hcs hf
    match cs with
    | [] => exact ⟨([], st), by simp [walk]⟩
    | (response, tid) :: rest =>
      have hsome := hcs (response, tid) (List.mem_cons_self _ _)
      obtain ⟨child, hdict⟩ := Option.isSome_iff_exists.mp hsome
      obtain ⟨hchildmem, hchildid⟩ := dictOf_some hdict
      by_cases hpar : (st child.id).parent = none
      · have hnw : nodeWeight story child.id = child.children.length + 1 := by
          rw [nodeWeight, hchildid, hdict]
        have hplace := unplacedWeight_placeChild selfId prevSib response
          hchildmem hpar
        simp only [List.length_cons] at hf
        have hfi : child.children.length + unplacedWeight story
            (placeChild st child.id selfId prevSib response) < fuel := by
          omega
        obtain ⟨⟨recs, st4⟩, hw1⟩ := ih child.id child.children none _
          (fun p hp => Ht child hchildmem p hp) hfi
        have hmono4 := walk_weight_mono hw1
        have hfc : rest.length + unplacedWeight story st4 < fuel := by omega
        obtain ⟨⟨recs2, st5⟩, hw2⟩ := ih selfId rest (some child.id) st4
          (fun p hp => hcs p (List.mem_cons_of_mem _ hp)) hfc
        refine ⟨(OutRec.placed child.id child.text :: (recs ++ recs2), st5), ?_⟩
        simp only [walk]
        rw [hdict]
        simp only []
        rw [if_pos hpar, hw1]
        simp [Except.bind, Except.map, hw2]
      · simp only [List.length_cons] at hf
        have hfc : rest.length + unplacedWeight story st < fuel := by omega
        obtain ⟨⟨recs2, st5⟩, hw2⟩ := ih selfId rest
          (some (selfId ++ "-" ++ child.id)) st
          (fun p hp => hcs p (List.mem_cons_of_mem _ hp)) hfc
        refine ⟨(OutRec.pointer selfId child.id response prevSib :: recs2, st5), ?_⟩
        simp only [walk]
        rw [hdict]
        simp only []
        rw [if_neg hpar, hw2]
        simp [Except.map]

theorem walk_parent_new {story : List StoryNode} :
    ∀ (fuel : Nat) (selfId : String) (cs : List (String × String))
      (prevSib : Option String) (st : TState) {out : List OutRec} {st₁ : TState},
    selfId ∈ idsOf story →
    walk story fuel selfId cs prevSib st = .ok (out, st₁) →
    ∀ i v, (st₁ i).parent = some v →
      (st i).parent = some v ∨
        (v ∈ idsOf story ∧ ∃ tx, OutRec.placed i tx ∈ out) := by
  intro fuel
  induction fuel with
  | zero =>
    intro selfId cs prevSib st out st₁ _ h
    simp [walk] at h
  | succ fuel ih =>
    intro selfId cs prevSib st out st₁ hself h i v hv
    match cs with
    | [] =>
      simp only [walk, Except.ok.injEq, Prod.mk.injEq] at h
      rw [← h.2] at hv
      exact Or.inl hv
    | (response, tid) :: rest =>
      simp only [walk] at h
      cases hdict : dictOf story tid with
      | none => rw [hdict] at h; simp at h
      | some child =>
        rw [hdict] at h
        simp only [] at h
        obtain ⟨hchildmem, hchildid⟩ := dictOf_some hdict
        have hchildids : child.id ∈ idsOf story :=
          List.mem_map_of_mem _ hchildmem
        by_cases hpar : (st child.id).parent = none
        · rw [if_pos hpar] at h
          obtain ⟨⟨recs, st4⟩, hw1, h⟩ := except_bind_ok h
          obtain ⟨⟨recs2, st5⟩, hw2, h⟩ := except_map_ok h
          simp only [Prod.mk.injEq] at h
          obtain ⟨hout, hst⟩ := h
          subst hst
          rcases ih selfId rest (some child.id) st4 hself hw2 i v hv with
            h4 | ⟨hvin, tx, htx⟩
          · rcases ih child.id child.children none _ hchildids hw1 i v h4 with
              h3 | ⟨hvin, tx, htx⟩
            · by_cases hic : i = child.id
              · subst hic
                rw [placeChild_self_parent] at h3
                have hveq : selfId = v := by injection h3
                right
                refine ⟨hveq ▸ hself, child.text, ?_⟩
                rw [← hout]
                exact List.mem_cons_self _ _
              · rw [placeChild_other hic] at h3
                exact Or.inl h3
            · exact Or.inr ⟨hvin, tx, by
                rw [← hout]
                exact List.mem_cons_of_mem _ (List.mem_append_left _ htx)⟩
          · exact Or.inr ⟨hvin, tx, by
              rw [← hout]
              exact List.mem_cons_of_mem _ (List.mem_append_right _ htx)⟩
        · rw [if_neg hpar] at h
          obtain ⟨⟨recs2, st5⟩, hw2, h⟩ := except_map_ok h
          simp only [Prod.mk.injEq] at h
          obtain ⟨hout, hst⟩ := h
          subst hst
          rcases ih selfId rest (some (selfId ++ "-" ++ child.id)) st hself
            hw2 i v hv with h4 | ⟨hvin, tx, htx⟩
          · exact Or.inl h4
          · exact Or.inr ⟨hvin, tx, by
              rw [← hout]
              exact List.mem_cons_of_mem _ htx⟩

theorem walk_pointer_src {story : List StoryNode} :
    ∀ (fuel : Nat) (selfId : String) (cs : List (String × String))
      (prevSib : Option String) (st : TState) {out : List OutRec} {st₁ : TState},
    (∃ n, n ∈ story ∧ n.id = selfId ∧ ∀ p ∈ cs, p ∈ n.children) →
    walk story fuel selfId cs prevSib st = .ok (out, st₁) →
    ∀ s t c pv, OutRec.pointer s t c pv ∈ out →
      (∃ n, n ∈ story ∧ n.id = s ∧ (c, t) ∈ n.children) ∧
        (st₁ t).parent ≠ none := by
  intro fuel
  induction fuel with
  | zero =>
    intro selfId cs prevSib st out st₁ _ h
    simp [walk] at h
  | succ fuel ih =>
    intro selfId cs prevSib st out st₁ hinv h s t c pv hmem
    match cs with
    | [] =>
      simp only [walk, Except.ok.injEq, Prod.mk.injEq] at h
      rw [← h.1] at hmem
      cases hmem
    | (response, tid) :: rest =>
      simp only [walk] at h
      cases hdict : dictOf story tid with
      | none => rw [hdict] at h; simp at h
      | some child =>
        rw [hdict] at h
        simp only [] at h
        obtain ⟨hchildmem, hchildid⟩ := dictOf_some hdict
        obtain ⟨n, hnmem, hnid, hsub⟩ := hinv
        by_cases hpar : (st child.id).parent = none
        · rw [if_pos hpar] at h
          obtain ⟨⟨recs, st4⟩, hw1, h⟩ := except_bind_ok h
          obtain ⟨⟨recs2, st5⟩, hw2, h⟩ := except_map_ok h
          simp only [Prod.mk.injEq] at h
          obtain ⟨hout, hst⟩ := h
          subst hst
          rw [← hout] at hmem
          rcases List.mem_cons.mp hmem with heq | hmem'
          · cases heq
          · rcases List.mem_append.mp hmem' with hrec | hrec
            · obtain ⟨hn, hne4⟩ := ih child.id child.children none _
                ⟨child, hchildmem, rfl, fun p hp => hp⟩ hw1 s t c pv hrec
              refine ⟨hn, ?_⟩
              rcases Option.ne_none_iff_exists'.mp hne4 with ⟨v, hv⟩
              rw [walk_parent_stable fuel selfId rest (some child.id) st4
                hw2 t v hv]
              simp
            · exact ih selfId rest (some child.id) st4
                ⟨n, hnmem, hnid, fun p hp => hsub p (List.mem_cons_of_mem _ hp)⟩
                hw2 s t c pv hrec
        · rw [if_neg hpar] at h
          obtain ⟨⟨recs2, st5⟩, hw2, h⟩ := except_map_ok h
          simp only [Prod.mk.injEq] at h
          obtain ⟨hout, hst⟩ := h
          subst hst
          rw [← hout] at hmem
          rcases List.mem_cons.mp hmem with heq | hmem'
          · obtain ⟨hs, ht, hc, hpv⟩ : s = selfId ∧ t = child.id ∧
                c = response ∧ pv = prevSib := by
              injection heq with h1 h2 h3 h4
              exact ⟨h1, h2, h3, h4⟩
            refine ⟨⟨n, hnmem, ?_, ?_⟩, ?_⟩
            · rw [hs]; exact hnid
            · rw [hc, ht, hchildid]
              exact hsub (response, tid) (List.mem_cons_self _ _)
            · rw [ht]
              rcases Option.ne_none_iff_exists'.mp hpar with ⟨v, hv⟩
              rw [walk_parent_stable fuel selfId rest
                (some (selfId ++ "-" ++ child.id)) st hw2 child.id v hv]
              simp
          · exact ih selfId rest (some (selfId ++ "-" ++ child.id)) st
              ⟨n, hnmem, hnid, fun p hp => hsub p (List.mem_cons_of_mem _ hp)⟩
              hw2 s t c pv hmem'

theorem walk_error_key {story : List StoryNode} :
    ∀ (fuel : Nat) (selfId : String) (cs : List (String × String))
      (prevSib : Option String) (st : TState) {k : String},
    (∃ n, n ∈ story ∧ n.id = selfId ∧ ∀ p ∈ cs, p ∈ n.children) →
    walk story fuel selfId cs prevSib st = .error (.keyError k) →
    dictOf story k = none ∧ ∃ n c, n ∈ story ∧ (c, k) ∈ n.children := by
  intro fuel
  induction fuel with
  | zero =>
    intro selfId cs prevSib st k _ h
    simp [walk] at h
  | succ fuel ih =>
    intro selfId cs prevSib st k hinv h
    match cs with
    | [] => simp [walk] at h
    | (response, tid) :: rest =>
      simp only [walk] at h
      obtain ⟨n, hnmem, hnid, hsub⟩ := hinv
      cases hdict : dictOf story tid with
      | none =>
        rw [hdict] at h
        simp only [Except.error.injEq, TreeErr.keyError.injEq] at h
        subst h
        exact ⟨hdict, n, response, hnmem,
          hsub (response, tid) (List.mem_cons_self _ _)⟩
      | some child =>
        rw [hdict] at h
        simp only [] at h
        obtain ⟨hchildmem, _⟩ := dictOf_some hdict
        by_cases hpar : (st child.id).parent = none
        · rw [if_pos hpar] at h
          rcases except_bind_error h with herr | ⟨⟨recs, st4⟩, _, herr⟩
          · exact ih child.id child.children none _
              ⟨child, hchildmem, rfl, fun p hp => hp⟩ herr
          · have herr2 := except_map_error herr
            exact ih selfId rest (some child.id) st4
              ⟨n, hnmem, hnid, fun p hp => hsub p (List.mem_cons_of_mem _ hp)⟩
              herr2
        · rw [if_neg hpar] at h
          have herr2 := except_map_error h
          exact ih selfId rest (some (selfId ++ "-" ++ child.id)) st
            ⟨n, hnmem, hnid, fun p hp => hsub p (List.mem_cons_of_mem _ hp)⟩
            herr2

/-! Shape of a successful top-level `tree` call. -/

theorem treeTopE_ok_shape {story : List StoryNode} {fuel : Nat}
    {recs : List OutRec} {st : TState}
    (h : treeTopE story fuel = .ok (recs, st)) :
    ∃ n₀ rest root tail fuel', story = n₀ :: rest ∧
      dictOf story n₀.id = some root ∧ root.id = n₀.id ∧ fuel = fuel' + 1 ∧
      walk story fuel' root.id root.children none initState = .ok (tail, st) ∧
      recs = OutRec.placed root.id root.text :: tail := by
  cases story with
  | nil => simp [treeTopE] at h
  | cons n₀ rest =>
    unfold treeTopE at h
    simp only [] at h
    cases hd : dictOf (n₀ :: rest) n₀.id with
    | none => rw [hd] at h; simp at h
    | some root =>
      rw [hd] at h
      simp only [] at h
      cases fuel with
      | zero => simp at h
      | succ fuel' =>
        simp only [] at h
        cases hw : walk (n₀ :: rest) fuel' root.id root.children none initState with
        | error e => rw [hw] at h; simp at h
        | ok p =>
          obtain ⟨tail, st'⟩ := p
          rw [hw] at h
          simp only [Except.ok.injEq, Prod.mk.injEq] at h
          obtain ⟨h1, h2⟩ := h
          subst h2
          exact ⟨n₀, rest, root, tail, fuel', rfl, hd, (dictOf_some hd).2,
            rfl, hw, h1.symm⟩

/-- C4: for every non-empty node set the first encoded output record is the
content record of the designated root (the first node of the input
sequence), with its condition forced to the reserved start label
`conversation_start`, whatever the root's own choices are. -/
theorem c4_root_framing (n₀ : StoryNode) (rest : List StoryNode) (fuel : Nat)
    {ints : List Intent} {dns : List DialogNode}
    (h : exportE (n₀ :: rest) fuel = .ok (ints, dns)) :
    ∃ d, dns.head? = some d ∧ d.dialog_node = n₀.id
      ∧ d.conditions = some "conversation_start" ∧ d.jump_to = none := by
  have hps : prepStory (n₀ :: rest) = prepNode n₀ :: prepStory rest := rfl
  unfold exportE at h
  simp only [] at h
  cases ht : treeTopE (prepStory (n₀ :: rest)) fuel with
  | error e => rw [ht] at h; cases h
  | ok p =>
    obtain ⟨recs, st⟩ := p
    rw [ht] at h
    obtain ⟨m₀, rest', root, tail, fuel', hcons, hd, hrootid, _, _, hrecs⟩ :=
      treeTopE_ok_shape ht
    rw [hcons] at h
    dsimp only at h
    rw [Except.ok.injEq, Prod.mk.injEq] at h
    obtain ⟨_, h2⟩ := h
    subst h2
    have hm₀ : m₀.id = n₀.id := by
      rw [hps] at hcons
      have := (List.cons.injEq _ _ _ _).mp hcons.symm
      rw [this.1]
      rfl
    refine ⟨encodeRec (upd st m₀.id
        (fun m => { m with conditions := some "conversation_start" }))
        (OutRec.placed root.id root.text), ?_, ?_, ?_, ?_⟩
    · rw [hrecs]; rfl
    · rw [show (encodeRec _ (OutRec.placed root.id root.text)).dialog_node =
        root.id from rfl, hrootid, hm₀]
    · show (upd st m₀.id _ root.id).conditions = some "conversation_start"
      rw [hrootid]
      simp [upd]
    · rfl

/-- Witness for C4 at the spec's concrete scenario. -/
theorem c4_root_framing_witness :
    ∃ d, ∃ ip : List Intent × List DialogNode,
      exportE demoStory 10 = .ok ip ∧ ip.2.head? = some d
      ∧ d.dialog_node = "A" ∧ d.conditions = some "conversation_start"
      ∧ d.jump_to = none := by
  obtain ⟨d, h1, h2, h3, h4⟩ := c4_root_framing nodeA [nodeB, nodeC] 10 rfl
  exact ⟨d, _, rfl, h1, h2, h3, h4⟩

/-- C3: every emitted pointer record is correct: its encoded jump directive
(`next_step.dialog_node`) is exactly the target's placed-node identifier
(the target's id, which is what the target's content record carries as
`dialog_node`), its condition is the choice label of the edge it stands
for, the target does have a placed record in the output, and — whenever the
synthetic pointer id collides with no node id — no record of the output has
the pointer as its parent (a pointer is never recursed into and contributes
no children). -/
theorem c3_pointer_correct (story : List StoryNode) (fuel : Nat)
    {out : List OutRec} {st₁ : TState}
    (h : treeTopE story fuel = .ok (out, st₁)) :
    ∀ s t c pv, OutRec.pointer s t c pv ∈ out →
      (∀ st, (encodeRec st (OutRec.pointer s t c pv)).jump_to = some t
        ∧ (encodeRec st (OutRec.pointer s t c pv)).dialog_node = s ++ "-" ++ t
        ∧ (encodeRec st (OutRec.pointer s t c pv)).conditions = some c)
      ∧ (∃ n, n ∈ story ∧ n.id = s ∧ (c, t) ∈ n.children)
      ∧ (∃ tx, OutRec.placed t tx ∈ out)
      ∧ ((s ++ "-" ++ t) ∉ idsOf story →
          ∀ r ∈ out, (encodeRec st₁ r).parent ≠ some (s ++ "-" ++ t)) := by
  intro s t c pv hmem
  obtain ⟨n₀, rest, root, tail, fuel', hcons, hd, hrootid, hfuel, hw, hrecs⟩ :=
    treeTopE_ok_shape h
  subst hcons
  have hrootmem := (dictOf_some hd).1
  have hrootids : root.id ∈ idsOf (n₀ :: rest) :=
    List.mem_map_of_mem _ hrootmem
  have hinv : ∃ n, n ∈ (n₀ :: rest) ∧ n.id = root.id ∧
      ∀ p ∈ root.children, p ∈ n.children :=
    ⟨root, hrootmem, rfl, fun p hp => hp⟩
  have hmem' : OutRec.pointer s t c pv ∈ tail := by
    rw [hrecs] at hmem
    rcases List.mem_cons.mp hmem with heq | hmem'
    · cases heq
    · exact hmem'
  obtain ⟨hn, hne⟩ := walk_pointer_src fuel' root.id root.children none
    initState hinv hw s t c pv hmem'
  refine ⟨fun st => ⟨rfl, rfl, rfl⟩, hn, ?_, ?_⟩
  · rcases Option.ne_none_iff_exists'.mp hne with ⟨v, hv⟩
    rcases walk_parent_new fuel' root.id root.children none initState
      hrootids hw t v hv with hinit | ⟨_, tx, htx⟩
    · simp [initState] at hinit
    · exact ⟨tx, by rw [hrecs]; exact List.mem_cons_of_mem _ htx⟩
  · intro hfresh r hr
    cases r with
    | placed i tx =>
      intro hcontra
      have hcontra' : (st₁ i).parent = some (s ++ "-" ++ t) := hcontra
      rcases walk_parent_new fuel' root.id root.children none initState
        hrootids hw i (s ++ "-" ++ t) hcontra' with hinit | ⟨hvin, _⟩
      · simp [initState] at hinit
      · exact hfresh hvin
    | pointer s' t' c' pv' =>
      intro hcontra
      have hs' : s' = s ++ "-" ++ t := by
        have hcontra' : some s' = some (s ++ "-" ++ t) := hcontra
        injection hcontra'
      have hr' : OutRec.pointer s' t' c' pv' ∈ tail := by
        rw [hrecs] at hr
        rcases List.mem_cons.mp hr with heq | h'
        · cases heq
        · exact h'
      obtain ⟨⟨n', hn'mem, hn'id, _⟩, _⟩ := walk_pointer_src fuel' root.id
        root.children none initState hinv hw s' t' c' pv' hr'
      apply hfresh
      rw [← hs', ← hn'id]
      exact List.mem_map_of_mem _ hn'mem

/-- Witness for C3 on `demoRepeat`, whose walk emits the pointer
`A2→B` for the label `p`. -/
theorem c3_pointer_correct_witness :
    (∀ st, (encodeRec st (OutRec.pointer "A2" "B" "p" none)).jump_to =
      some "B")
    ∧ (∃ n, n ∈ demoRepeat ∧ n.id = "A2" ∧ ("p", "B") ∈ n.children) := by
  obtain ⟨h1, h2, _, _⟩ :=
    c3_pointer_correct demoRepeat 9 rfl "A2" "B" "p" none (by decide)
  exact ⟨fun st => (h1 st).1, h2⟩

/-- `prepStory` rewrites nodes in place, so the id-keyed dictionary commutes
with it. -/
theorem dictOf_prep (story : List StoryNode) (k : String) :
    dictOf (prepStory story) k = (dictOf story k).map prepNode := by
  induction story with
  | nil => rfl
  | cons n rest ih =>
    show dictOf (prepNode n :: prepStory rest) k = _
    rw [dictOf, ih]
    cases hr : dictOf rest k with
    | some m => simp [dictOf, hr]
    | none =>
      by_cases hk : n.id = k <;>
        simp [dictOf, hr, prepNode, hk]

/-- C8 amended: when the conversion does fail with a reference error, the
error carries exactly the missing target id — an id referenced by some
rewritten node's choice and absent from the node set — and no output is
produced; it does not carry the source node id or the choice label (and,
per the counterexample, dangling targets on never-placed nodes do not make
the conversion fail at all). -/
theorem c8_missing_target_error (story : List StoryNode) (fuel : Nat)
    (k : String) (h : exportE story fuel = .error (.keyError k)) :
    dictOf story k = none ∧
      ∃ n c, n ∈ prepStory story ∧ (c, k) ∈ n.children := by
  have htt : treeTopE (prepStory story) fuel = .error (.keyError k) := by
    unfold exportE at h
    simp only [] at h
    cases ht : treeTopE (prepStory story) fuel with
    | error e =>
      rw [ht] at h
      simp only [Except.error.injEq] at h
      rw [h]
    | ok p =>
      rw [ht] at h
      obtain ⟨recs, st⟩ := p
      simp only [] at h
      cases hps : prepStory story with
      | nil => rw [hps] at h; simp at h
      | cons m rest' => rw [hps] at h; simp at h
  unfold treeTopE at htt
  cases hps : prepStory story with
  | nil => rw [hps] at htt; simp at htt
  | cons m rest' =>
    rw [hps] at htt
    simp only [] at htt
    cases hd : dictOf (m :: rest') m.id with
    | none => rw [hd] at htt; simp at htt
    | some root =>
      rw [hd] at htt
      simp only [] at htt
      cases fuel with
      | zero => simp at htt
      | succ fuel' =>
        simp only [] at htt
        cases hw : walk (m :: rest') fuel' root.id root.children none
            initState with
        | ok p => rw [hw] at htt; simp at htt
        | error e =>
          rw [hw] at htt
          simp only [Except.error.injEq] at htt
          rw [htt] at hw
          obtain ⟨h1, h2⟩ := walk_error_key fuel' root.id root.children none
            initState ⟨root, (dictOf_some hd).1, rfl, fun p hp => hp⟩ hw
          constructor
          · have h1' : dictOf (prepStory story) k = none := by
              rw [hps]; exact h1
            rw [dictOf_prep] at h1'
            exact Option.map_eq_none'.mp h1'
          · obtain ⟨n, c, hn, hc⟩ := h2
            exact ⟨n, c, hn, hc⟩

/-- Witness for C8 amended: a root whose only choice targets the unknown id
`X` makes the conversion fail with exactly `KeyError "X"`. -/
theorem c8_missing_target_error_witness :
    dictOf demoMissing "X" = none ∧
      ∃ n c, n ∈ prepStory demoMissing ∧ (c, "X") ∈ n.children :=
  c8_missing_target_error demoMissing 4 "X" rfl

/-- C9: the graph-to-tree reduction terminates on every finite node set all
of whose choice targets exist, cycles and reconvergent edges included: a
fuel budget of twice the total node weight never runs out and the walk
returns a result.  (Each node is placed at most once per parent
assignment, and entering a node consumes its weight, so the recursion is
bounded even though the root can be re-entered once.) -/
theorem c9_walk_terminates (story : List StoryNode)
    (Ht : ∀ n ∈ story, ∀ p ∈ n.children, (dictOf story p.2).isSome)
    (hne : story ≠ []) :
    ∀ fuel, 2 * storyWeight story + 2 ≤ fuel →
    ∃ out, treeTopE story fuel = .ok out := by
  intro fuel hfuel
  match story, hne, Ht, hfuel with
  | n₀ :: rest, _, Ht, hfuel =>
    obtain ⟨root, hd, hrid⟩ := dictOf_mem_isSome ⟨n₀, List.mem_cons_self _ _, rfl⟩
    have hrmem := (dictOf_some hd).1
    have hdr : dictOf (n₀ :: rest) root.id = some root := by rw [hrid]; exact hd
    have hnw : nodeWeight (n₀ :: rest) root.id = root.children.length + 1 := by
      rw [nodeWeight, hdr]
    have hle : nodeWeight (n₀ :: rest) root.id ≤ storyWeight (n₀ :: rest) :=
      List.le_sum_of_mem (List.mem_map_of_mem _
        (List.mem_dedup.mpr (List.mem_map_of_mem _ hrmem)))
    have hinit : unplacedWeight (n₀ :: rest) initState =
        storyWeight (n₀ :: rest) := by
      unfold unplacedWeight storyWeight
      rw [show (idsOf (n₀ :: rest)).dedup.filter
          (fun i => (initState i).parent.isNone) =
          (idsOf (n₀ :: rest)).dedup from
        List.filter_eq_self.mpr (fun x _ => rfl)]
    cases fuel with
    | zero => omega
    | succ fuel' =>
      obtain ⟨⟨recs, st⟩, hw⟩ := walk_total Ht fuel' root.id root.children
        none initState (fun p hp => Ht root hrmem p hp) (by omega)
      exact ⟨(OutRec.placed root.id root.text :: recs, st),
        by simp [treeTopE, hd, hw]⟩

/-- Witness for C9: the cyclic concrete scenario (post label-rewrite, as
`tree` receives it) terminates within the computed fuel bound. -/
theorem c9_walk_terminates_witness :
    ∃ out, treeTopE (prepStory demoStory)
      (2 * storyWeight (prepStory demoStory) + 2) = .ok out :=
  c9_walk_terminates (prepStory demoStory) (by decide) (by decide) _
    (Nat.le_refl _)

/-- C1: the at-most-once placement invariant fails on the code: in the spec's
own concrete scenario the root `A` is the target of the `back` edge; since
the code tests placement via `child.parent is None` and the root never
receives a parent up front, the `back` edge re-places `A` and the output
contains two `StoryNode` records for id `A`. -/
theorem c1_root_placed_twice :
    placedCountIn (prepStory demoStory) 10 "A" = 2 := by decide

/-- C2: the actual output of the conversion on the spec's concrete scenario:
6 records `[A; B; A again; pointer A→B; C; pointer A→C]` (with `A`
re-parented under `B`), not the 4 records `[A; B; pointer B→A; C]` the claim
expects; the extracted intent set `{go_left, go_right, back}` does match. -/
theorem c2_concrete_scenario_actual :
    exportProj demoStory 10 = some
      [⟨"A", some "B", none, some "conversation_start", none⟩,
       ⟨"B", some "A", none, some "#go_left", none⟩,
       ⟨"A", some "B", none, some "conversation_start", none⟩,
       ⟨"A-B", some "A", none, some "#go_left", some "B"⟩,
       ⟨"C", some "A", some "A-B", some "#go_right", none⟩,
       ⟨"A-C", some "A", some "B", some "#go_right", some "C"⟩]
    ∧ (intentIdsOf demoStory).length = 3
    ∧ "go_left" ∈ intentIdsOf demoStory
    ∧ "go_right" ∈ intentIdsOf demoStory
    ∧ "back" ∈ intentIdsOf demoStory
    ∧ Intent.mk "go_left" ["go left"] ∈ intentsOf demoStory
    ∧ Intent.mk "go_right" ["go right"] ∈ intentsOf demoStory
    ∧ Intent.mk "back" ["back"] ∈ intentsOf demoStory := by
  exact ⟨by decide, by decide, by decide, by decide, by decide, by decide,
    by decide, by decide⟩

/-- C5: sibling-order fidelity fails on the code at the same scenario: the
root `A` has exactly 2 choices, yet the encoded output contains 4 records
whose parent is `A`, two of which (`B` and the pointer `A-B`) both have no
previous sibling — two interleaved chains instead of one chain reproducing
the insertion order of `A`'s two choices. -/
theorem c5_sibling_chain_broken :
    childProj demoStory 10 "A" =
      some [("B", none), ("A-B", none), ("C", some "A-B"), ("A-C", some "B")]
    ∧ (dictOf (prepStory demoStory) "A").map (fun n => n.children.length) =
      some 2 := by decide

/-- C7 counterexample: re-running intent extraction on the already-rewritten
node set does not yield the identical intent set: the first run produces
`go_left` from the label `go left`, the second run wraps the rewritten label
`#go_left` into a new intent `#go_left` (and rewriting a second time turns
the choice key into `##go_left`). -/
theorem c7_counterexample :
    intentsOf (prepStory demoStory) ≠ intentsOf demoStory
    ∧ Intent.mk "go_left" ["go left"] ∈ intentsOf demoStory
    ∧ Intent.mk "go_left" ["go left"] ∉ intentsOf (prepStory demoStory)
    ∧ "go_left" ∉ intentIdsOf (prepStory demoStory)
    ∧ "#go_left" ∈ intentIdsOf (prepStory demoStory)
    ∧ ("##go_left", "B") ∈ rewriteChildren (rewriteChildren nodeA.children) := by
  decide

/-- C8 counterexample: a choice target absent from the node set does not make
the conversion fail when its source node is never placed: `B`'s choice
targets the unknown id `X`, yet the conversion succeeds. -/
theorem c8_counterexample_unreachable :
    dictOf demoUnreachable "X" = none
    ∧ nodeUB ∈ demoUnreachable
    ∧ ("go", "X") ∈ nodeUB.children
    ∧ (exportProj demoUnreachable 4).isSome = true := by decide

/-- C10: a pointer's `dialog_node` identifier is the source id and target id
joined by `"-"` and depends on neither the condition label nor the sibling
link; the walk on `demoRepeat` emits two pointer records for the two repeat
edges `A2→B` (labels `p` and `q`), and both encode the same `dialog_node`
`"A2-B"`. -/
theorem c10_pointer_id :
    (∀ s t c pv st, (encodeRec st (OutRec.pointer s t c pv)).dialog_node =
      s ++ "-" ++ t)
    ∧ recsOf (treeTopE demoRepeat 9) = some
      [OutRec.placed "R" "r", OutRec.placed "B" "b", OutRec.placed "A2" "a",
       OutRec.pointer "A2" "B" "p" none,
       OutRec.pointer "A2" "B" "q" (some "A2-B")]
    ∧ (∀ st c₁ c₂ pv₁ pv₂,
        (encodeRec st (OutRec.pointer "A2" "B" c₁ pv₁)).dialog_node =
        (encodeRec st (OutRec.pointer "A2" "B" c₂ pv₂)).dialog_node) := by
  refine ⟨fun s t c pv st => rfl, by decide, fun st c₁ c₂ pv₁ pv₂ => rfl⟩

